import Mathlib

/-!
Verification development for the Diamond archive container
(src/diamond.py).  The pack and unpack routines are shallowly embedded:
bytes are natural numbers below 256, byte buffers are lists, the
filesystem is an association list from paths to contents, and the zlib
compression boundary is a parameter (pack takes an arbitrary compress
function standing for zlib.compress at level 9, unpack takes a partial
decompress function standing for zlib.decompress, which fails on corrupt
streams).
-/

namespace Diamond

/-- Magic constant b'DMD\x01' from diamond.py line 16. -/
def MAGIC_NUMBER : List Nat := [68, 77, 68, 1]

/-- Little-endian 4-byte encoding, the layout produced by
struct.pack with format I on the platforms the tool targets. -/
def le32enc (n : Nat) : List Nat :=
  [n % 256, n / 256 % 256, n / 65536 % 256, n / 16777216 % 256]

/-- struct.pack with format I: 4 little-endian bytes, raising
struct.error (modelled as none) when the value exceeds 32 bits. -/
def struct_pack_I (n : Nat) : Option (List Nat) :=
  if n < 4294967296 then some (le32enc n) else none

/-- struct.unpack with format I: requires a buffer of exactly 4 bytes,
raising struct.error (modelled as none) otherwise. -/
def struct_unpack_I (bs : List Nat) : Option Nat :=
  match bs with
  | [a, b, c, d] => some (a + 256 * b + 65536 * c + 16777216 * d)
  | _ => none

/-- Python slice b[a:b] on a byte sequence: clamps at the end of the
buffer, so it can silently return fewer bytes than requested. -/
def pyslice (l : List Nat) (a b : Nat) : List Nat :=
  (l.drop a).take (b - a)

/-- UTF-8 encoding of a single scalar value, as produced by
str.encode in CPython. -/
def utf8EncodeChar (c : Char) : List Nat :=
  if c.toNat < 128 then [c.toNat]
  else if c.toNat < 2048 then
    [192 + c.toNat / 64, 128 + c.toNat % 64]
  else if c.toNat < 65536 then
    [224 + c.toNat / 4096, 128 + c.toNat / 64 % 64, 128 + c.toNat % 64]
  else
    [240 + c.toNat / 262144, 128 + c.toNat / 4096 % 64,
     128 + c.toNat / 64 % 64, 128 + c.toNat % 64]

/-- UTF-8 encoding of a list of characters. -/
def utf8EncodeList (l : List Char) : List Nat :=
  (l.map utf8EncodeChar).flatten

/-- str.encode of a Python string with the utf-8 codec. -/
def utf8Encode (s : String) : List Nat :=
  utf8EncodeList s.data

/-- Continuation-byte test of the strict UTF-8 decoder. -/
def contb (b : Nat) : Bool := 128 ≤ b && b < 192

/-- First-continuation-byte test after a 3-byte lead: lead 224 forbids
overlong encodings, lead 237 forbids surrogates. -/
def lead3ok (b b1 : Nat) : Bool :=
  if b = 224 then 160 ≤ b1 && b1 < 192
  else if b = 237 then 128 ≤ b1 && b1 < 160
  else 128 ≤ b1 && b1 < 192

/-- First-continuation-byte test after a 4-byte lead: lead 240 forbids
overlong encodings, lead 244 caps the value at 0x10FFFF. -/
def lead4ok (b b1 : Nat) : Bool :=
  if b = 240 then 144 ≤ b1 && b1 < 192
  else if b = 244 then 128 ≤ b1 && b1 < 144
  else 128 ≤ b1 && b1 < 192

/-- Scalar value of a decoded 2-byte sequence. -/
def dchar2 (b b1 : Nat) : Char :=
  Char.ofNat ((b - 192) * 64 + (b1 - 128))

/-- Scalar value of a decoded 3-byte sequence. -/
def dchar3 (b b1 b2 : Nat) : Char :=
  Char.ofNat ((b - 224) * 4096 + (b1 - 128) * 64 + (b2 - 128))

/-- Scalar value of a decoded 4-byte sequence. -/
def dchar4 (b b1 b2 b3 : Nat) : Char :=
  Char.ofNat ((b - 240) * 262144 + (b1 - 128) * 4096 + (b2 - 128) * 64 + (b3 - 128))

/-- Decoding of one UTF-8 sequence: given the lead byte and the
remaining buffer, return the decoded character and the unconsumed rest,
or none when the sequence is invalid or truncated. -/
def utf8DecodeStep (b : Nat) (bs : List Nat) : Option (Char × List Nat) :=
  if b < 128 then some (Char.ofNat b, bs)
  else if b < 194 then none
  else if b < 224 then
    match bs with
    | b1 :: bs1 => if contb b1 then some (dchar2 b b1, bs1) else none
    | [] => none
  else if b < 240 then
    match bs with
    | b1 :: b2 :: bs2 =>
      if lead3ok b b1 && contb b2 then some (dchar3 b b1 b2, bs2) else none
    | _ => none
  else if b < 245 then
    match bs with
    | b1 :: b2 :: b3 :: bs3 =>
      if lead4ok b b1 && contb b2 && contb b3 then some (dchar4 b b1 b2 b3, bs3)
      else none
    | _ => none
  else none

/-- Fuel-indexed decoding loop; every step consumes at least the lead
byte, so fuel equal to the buffer length always suffices. -/
def utf8DecodeAux : Nat → List Nat → Option (List Char)
  | _, [] => some []
  | 0, _ :: _ => none
  | fuel + 1, b :: bs =>
    match utf8DecodeStep b bs with
    | none => none
    | some (c, rest) => (utf8DecodeAux fuel rest).map (fun cs => c :: cs)

/-- Strict UTF-8 decoding as performed by bytes.decode with the utf-8
codec in CPython: continuation bytes must be in 128..191, overlong
encodings, surrogates and values above 0x10FFFF are rejected, and a
truncated multi-byte sequence is rejected.  Returns none exactly when
CPython raises UnicodeDecodeError. -/
def utf8Decode (l : List Nat) : Option (List Char) :=
  utf8DecodeAux l.length l

/-- os.path.basename on a POSIX path: the part after the last slash. -/
def basename (s : String) : String :=
  String.mk (s.data.foldl (fun acc c => if c = '/' then [] else acc ++ [c]) [])

/-- Split a character list at the last slash: directory part (slash
included) and base part. -/
def splitLastSlash (l : List Char) : List Char × List Char :=
  l.foldl
    (fun acc c =>
      if c = '/' then (acc.1 ++ acc.2 ++ ['/'], []) else (acc.1, acc.2 ++ [c]))
    ([], [])

/-- Stem part of os.path.splitext: drop the last extension, where the
extension dot must sit after the base name's leading dots. -/
def splitextStem (s : String) : String :=
  let p := splitLastSlash s.data
  let base := p.2
  let lead := (base.takeWhile (fun c => c = '.')).length
  let idxs := (List.range base.length).filter
    (fun i => (base.get? i == some ('.')) && decide (max lead 1 ≤ i))
  match idxs.getLast? with
  | none => s
  | some i => String.mk (p.1 ++ base.take i)

/-- Python str.endswith: suffix test on the character sequence. -/
def pyEndsWith (s suf : String) : Bool :=
  suf.data.isSuffixOf s.data

/-- Output-path normalization of diamond.py lines 21-22: append the
fixed suffix when absent, leave the path unchanged when present. -/
def normalizeOutput (output : String) : String :=
  if pyEndsWith output (".dmd") then output else output ++ (".dmd")

/-- Name truncation of diamond.py lines 45-46: an encoded name longer
than 255 bytes is cut to its first 255 bytes. -/
def truncTo255 (l : List Nat) : List Nat :=
  if 255 < l.length then l.take 255 else l

/-- The filesystem visible to the packer: the association list of
existing files and their contents. -/
structure FS where
  files : List (String × List Nat)
deriving DecidableEq

/-- os.path.exists restricted to the modelled files. -/
def FS.pathExists (fs : FS) (p : String) : Bool :=
  (fs.files.lookup p).isSome

/-- open(p).read() for an existing file, none when the path is absent. -/
def FS.readFile (fs : FS) (p : String) : Option (List Nat) :=
  fs.files.lookup p

/-- Entry serialization loop of diamond.py lines 33-56: skip paths that
fail the existence check, otherwise append name length (one byte), the
possibly truncated UTF-8 name, the 4-byte content length and the raw
content.  none models a struct.error escaping to the except handler. -/
def packEntries (fs : FS) : List String → Option (List Nat)
  | [] => some []
  | arquivo :: rest =>
    if fs.pathExists arquivo then
      match fs.readFile arquivo with
      | none => none
      | some conteudo =>
        let nome_bytes := truncTo255 (utf8Encode (basename arquivo))
        match struct_pack_I conteudo.length, packEntries fs rest with
        | some lenBytes, some restBytes =>
          some (nome_bytes.length :: (nome_bytes ++ lenBytes ++ conteudo ++ restBytes))
        | _, _ => none
    else packEntries fs rest

/-- The payload buffer dados_empacotados of diamond.py lines 26-56: the
4-byte count written at line 29 (the length of the supplied list)
followed by the serialized entries. -/
def buildPayload (fs : FS) (arquivos : List String) : Option (List Nat) :=
  match struct_pack_I arquivos.length, packEntries fs arquivos with
  | some header, some entries => some (header ++ entries)
  | _, _ => none

/-- Diamond.empacotar_comprimir (diamond.py lines 18-81): normalize the
output path, build the payload, compress it (the compress parameter
stands for zlib.compress at level 9) and return the output path and the
archive bytes, magic header first.  none models the except handler
firing and the process exiting nonzero without writing an archive. -/
def empacotar_comprimir (compress : List Nat → List Nat) (fs : FS)
    (arquivos : List String) (output : String) : Option (String × List Nat) :=
  let out := normalizeOutput output
  match buildPayload fs arquivos with
  | none => none
  | some dados_empacotados => some (out, MAGIC_NUMBER ++ compress dados_empacotados)

/-- Compression percentage of diamond.py line 71, computed over exact
rationals in place of Python floats:
taxa = (1 - tamanho_comprimido / tamanho_original) * 100. -/
def taxaCompressao (compress : List Nat → List Nat) (fs : FS)
    (arquivos : List String) : Option ℚ :=
  match buildPayload fs arquivos with
  | none => none
  | some dados_empacotados =>
    some ((1 - ((compress dados_empacotados).length : ℚ) /
      (dados_empacotados.length : ℚ)) * 100)

/-- Failure classes of descomprimir_desempacotar: missing archive,
magic mismatch, and any exception caught by the except handler
(zlib failure, struct.error, IndexError, UnicodeDecodeError). -/
inductive UnpackErr where
  | notFound
  | invalidFormat
  | exc
deriving DecidableEq

/-- Observable outcome of an unpack run: the error if one aborted the
run, the destination directory if its creation was reached, and the
files written before the run ended, in write order. -/
structure UnpackResult where
  err : Option UnpackErr
  createdDir : Option String
  written : List (String × List Nat)
deriving DecidableEq

/-- Process exit status of an unpack run: sys.exit(1) on any reported
failure, 0 on success. -/
def UnpackResult.exitCode (r : UnpackResult) : Nat :=
  if r.err.isSome then 1 else 0

/-- Extraction loop of diamond.py lines 118-140: for each of the
declared number of entries read the one-byte name length (IndexError
when past the end), slice and UTF-8-decode the name (the slice clamps
silently), read the 4-byte content length (struct.error unless exactly
4 bytes remain in the slice) and slice the content (clamps silently).
Returns the files written so far and whether the loop finished without
an exception. -/
def unpackLoop (dados : List Nat) : Nat → Nat → List (String × List Nat) →
    List (String × List Nat) × Bool
  | _, 0, acc => (acc, true)
  | pos, n + 1, acc =>
    match dados.get? pos with
    | none => (acc, false)
    | some tamanho_nome =>
      match utf8Decode (pyslice dados (pos + 1) (pos + 1 + tamanho_nome)) with
      | none => (acc, false)
      | some nomeChars =>
        let pos2 := pos + 1 + tamanho_nome
        match struct_unpack_I (pyslice dados pos2 (pos2 + 4)) with
        | none => (acc, false)
        | some tamanho_conteudo =>
          let conteudo := pyslice dados (pos2 + 4) (pos2 + 4 + tamanho_conteudo)
          unpackLoop dados (pos2 + 4 + tamanho_conteudo) n
            (acc ++ [(String.mk nomeChars, conteudo)])

/-- Diamond.descomprimir_desempacotar (diamond.py lines 83-147).
fileBytes is the content of the archive path (none when the path does
not exist); decompress stands for zlib.decompress and returns none on a
corrupt stream.  The steps follow the source order: existence check,
magic check on the first 4 bytes, decompression, destination-directory
choice and creation, count parse, extraction loop. -/
def descomprimir_desempacotar (decompress : List Nat → Option (List Nat))
    (arquivo_dmd : String) (fileBytes : Option (List Nat))
    (pasta_destino : Option String) : UnpackResult :=
  match fileBytes with
  | none => ⟨some UnpackErr.notFound, none, []⟩
  | some dados_arquivo =>
    if dados_arquivo.take 4 ≠ MAGIC_NUMBER then
      ⟨some UnpackErr.invalidFormat, none, []⟩
    else
      match decompress (dados_arquivo.drop 4) with
      | none => ⟨some UnpackErr.exc, none, []⟩
      | some dados_descomprimidos =>
        let pasta := match pasta_destino with
          | none => splitextStem arquivo_dmd ++ ("_extraido")
          | some p => p
        match struct_unpack_I (pyslice dados_descomprimidos 0 4) with
        | none => ⟨some UnpackErr.exc, some pasta, []⟩
        | some num_arquivos =>
          let r := unpackLoop dados_descomprimidos 4 num_arquivos []
          ⟨if r.2 then none else some UnpackErr.exc, some pasta, r.1⟩

/-- Byte layout of one payload entry as the format specification states
it: NameLength, Name, ContentLength, Content with no padding. -/
def encEntry (e : List Nat × List Nat) : List Nat :=
  e.1.length :: (e.1 ++ le32enc e.2.length ++ e.2)

/-- Concatenation of entry layouts, in supply order. -/
def encEntries (es : List (List Nat × List Nat)) : List Nat :=
  (es.map encEntry).flatten

/-- The name bytes and content that packing serializes for each path of
the supplied list (meaningful for paths that exist). -/
def packedEntriesModel (fs : FS) (arquivos : List String) :
    List (List Nat × List Nat) :=
  arquivos.map (fun a => (truncTo255 (utf8Encode (basename a)), (fs.readFile a).getD []))

/-- Filesystem with one two-byte file, used for concrete instances. -/
def fsOne : FS := ⟨[(("a.txt"), [104, 105])]⟩

/-- Filesystem holding two files whose base names collide. -/
def fsDup : FS := ⟨[(("a"), [0]), (("b/a"), [1])]⟩

/-- File name of 254 ASCII characters followed by one two-byte
character, whose UTF-8 encoding is 256 bytes long. -/
def longName : String := String.mk (List.replicate 254 (Char.ofNat 97) ++ [Char.ofNat 233])

/-- Filesystem holding one file under the 256-byte name. -/
def fsLong : FS := ⟨[(longName, [7])]⟩

/-- Archive produced by packing the single file of fsOne with the
identity compressor. -/
def oneArchive : List Nat :=
  ((empacotar_comprimir id fsOne [("a.txt")] ("out")).getD (("x"), [])).2

/-- Archive produced by packing the two colliding-name files of fsDup
with the identity compressor. -/
def dupArchive : List Nat :=
  ((empacotar_comprimir id fsDup [("a"), ("b/a")] ("o")).getD (("o"), [])).2

/-- Archive produced by packing the long-named file of fsLong with the
identity compressor. -/
def longArchive : List Nat :=
  ((empacotar_comprimir id fsLong [longName] ("n")).getD (("n"), [])).2

theorem char_toNat_valid (c : Char) :
    c.toNat < 55296 ∨ (57343 < c.toNat ∧ c.toNat < 1114112) := by
  rcases c.valid with h | ⟨h1, h2⟩
  · left
    exact h
  · right
    exact ⟨h1, h2⟩

set_option maxRecDepth 16384 in
theorem utf8DecodeStep_length {b : Nat} {bs : List Nat} {c : Char} {rest : List Nat}
    (h : utf8DecodeStep b bs = some (c, rest)) : rest.length ≤ bs.length := by
  unfold utf8DecodeStep at h
  split at h
  · cases h
    exact Nat.le_refl _
  · split at h
    · cases h
    · split at h
      · split at h
        · split at h
          · cases h
            simp_all
          · cases h
        · cases h
      · split at h
        · split at h
          · split at h
            · cases h
              simp_all
              omega
            · cases h
          · cases h
        · split at h
          · split at h
            · split at h
              · cases h
                simp_all
                omega
              · cases h
            · cases h
          · cases h

theorem utf8DecodeAux_nil (f : Nat) : utf8DecodeAux f [] = some [] := by
  cases f <;> rfl

theorem utf8DecodeAux_cons (f : Nat) (b : Nat) (bs : List Nat) :
    utf8DecodeAux (f + 1) (b :: bs) =
      match utf8DecodeStep b bs with
      | none => none
      | some (c, rest) => (utf8DecodeAux f rest).map (fun cs => c :: cs) := rfl

theorem utf8DecodeAux_mono :
    ∀ (f g : Nat) (l : List Nat) (r : List Char), utf8DecodeAux f l = some r →
      f ≤ g → utf8DecodeAux g l = some r := by
  intro f
  induction f with
  | zero =>
    intro g l r h _
    match l with
    | [] =>
      rw [utf8DecodeAux_nil] at h
      rw [utf8DecodeAux_nil]
      exact h
    | b :: bs => exact absurd h (by rw [utf8DecodeAux]; exact Option.noConfusion)
  | succ f ih =>
    intro g l r h hfg
    match l with
    | [] =>
      rw [utf8DecodeAux_nil] at h
      rw [utf8DecodeAux_nil]
      exact h
    | b :: bs =>
      match g, hfg with
      | g + 1, _ =>
        rw [utf8DecodeAux_cons] at h
        rw [utf8DecodeAux_cons]
        cases hstep : utf8DecodeStep b bs with
        | none =>
          rw [hstep] at h
          exact absurd h (by exact Option.noConfusion)
        | some p =>
          cases p with
          | mk c rest =>
            rw [hstep] at h
            dsimp only at h ⊢
            cases hrec : utf8DecodeAux f rest with
            | none =>
              rw [hrec] at h
              exact absurd h (by exact Option.noConfusion)
            | some r0 =>
              rw [hrec] at h
              rw [ih g rest r0 hrec (by omega)]
              exact h

theorem utf8DecodeStep_enc1 (c : Char) (h1 : c.toNat < 128) (bs : List Nat) :
    utf8DecodeStep c.toNat bs = some (c, bs) := by
  unfold utf8DecodeStep
  rw [if_pos h1, Char.ofNat_toNat]

theorem utf8DecodeStep_enc2 (c : Char) (h1 : 128 ≤ c.toNat) (h2 : c.toNat < 2048)
    (bs : List Nat) :
    utf8DecodeStep (192 + c.toNat / 64) ((128 + c.toNat % 64) :: bs) = some (c, bs) := by
  unfold utf8DecodeStep
  rw [if_neg (by omega), if_neg (by omega), if_pos (by omega)]
  dsimp only
  have hcont : contb (128 + c.toNat % 64) = true := by
    simp only [contb, Bool.and_eq_true, decide_eq_true_eq]
    omega
  rw [if_pos hcont]
  have hval : dchar2 (192 + c.toNat / 64) (128 + c.toNat % 64) = c := by
    simp only [dchar2]
    rw [(by omega : (192 + c.toNat / 64 - 192) * 64 + (128 + c.toNat % 64 - 128) = c.toNat),
      Char.ofNat_toNat]
  rw [hval]

theorem utf8DecodeStep_enc3 (c : Char) (h1 : 2048 ≤ c.toNat) (h2 : c.toNat < 65536)
    (hs : c.toNat < 55296 ∨ 57343 < c.toNat) (bs : List Nat) :
    utf8DecodeStep (224 + c.toNat / 4096)
      ((128 + c.toNat / 64 % 64) :: (128 + c.toNat % 64) :: bs) = some (c, bs) := by
  unfold utf8DecodeStep
  rw [if_neg (by omega), if_neg (by omega), if_neg (by omega), if_pos (by omega)]
  dsimp only
  have hguard : (lead3ok (224 + c.toNat / 4096) (128 + c.toNat / 64 % 64) &&
      contb (128 + c.toNat % 64)) = true := by
    simp only [lead3ok, contb]
    split_ifs with hA hB <;>
      simp only [Bool.and_eq_true, decide_eq_true_eq] <;>
      rcases hs with hs | hs <;> omega
  rw [if_pos hguard]
  have hval : dchar3 (224 + c.toNat / 4096) (128 + c.toNat / 64 % 64)
      (128 + c.toNat % 64) = c := by
    simp only [dchar3]
    rw [(by omega : (224 + c.toNat / 4096 - 224) * 4096 +
        (128 + c.toNat / 64 % 64 - 128) * 64 + (128 + c.toNat % 64 - 128) = c.toNat),
      Char.ofNat_toNat]
  rw [hval]

theorem utf8DecodeStep_enc4 (c : Char) (h1 : 65536 ≤ c.toNat) (h2 : c.toNat < 1114112)
    (bs : List Nat) :
    utf8DecodeStep (240 + c.toNat / 262144)
      ((128 + c.toNat / 4096 % 64) :: (128 + c.toNat / 64 % 64) ::
        (128 + c.toNat % 64) :: bs) = some (c, bs) := by
  unfold utf8DecodeStep
  rw [if_neg (by omega), if_neg (by omega), if_neg (by omega), if_neg (by omega),
    if_pos (by omega)]
  dsimp only
  have hguard : (lead4ok (240 + c.toNat / 262144) (128 + c.toNat / 4096 % 64) &&
      contb (128 + c.toNat / 64 % 64) && contb (128 + c.toNat % 64)) = true := by
    simp only [lead4ok, contb]
    split_ifs with hA hB <;>
      simp only [Bool.and_eq_true, decide_eq_true_eq] <;> omega
  rw [if_pos hguard]
  have hval : dchar4 (240 + c.toNat / 262144) (128 + c.toNat / 4096 % 64)
      (128 + c.toNat / 64 % 64) (128 + c.toNat % 64) = c := by
    simp only [dchar4]
    rw [(by omega : (240 + c.toNat / 262144 - 240) * 262144 +
        (128 + c.toNat / 4096 % 64 - 128) * 4096 +
        (128 + c.toNat / 64 % 64 - 128) * 64 + (128 + c.toNat % 64 - 128) = c.toNat),
      Char.ofNat_toNat]
  rw [hval]

theorem utf8DecodeAux_encodeChar (c : Char) (bs : List Nat) (f : Nat) :
    utf8DecodeAux (f + 1) (utf8EncodeChar c ++ bs) =
      (utf8DecodeAux f bs).map (fun cs => c :: cs) := by
  have hv := char_toNat_valid c
  by_cases h1 : c.toNat < 128
  · simp only [utf8EncodeChar, if_pos h1, List.cons_append, List.nil_append]
    rw [utf8DecodeAux_cons, utf8DecodeStep_enc1 c h1]
  · by_cases h2 : c.toNat < 2048
    · simp only [utf8EncodeChar, if_neg h1, if_pos h2, List.cons_append, List.nil_append]
      rw [utf8DecodeAux_cons, utf8DecodeStep_enc2 c (by omega) h2]
    · by_cases h3 : c.toNat < 65536
      · simp only [utf8EncodeChar, if_neg h1, if_neg h2, if_pos h3, List.cons_append,
          List.nil_append]
        rw [utf8DecodeAux_cons, utf8DecodeStep_enc3 c (by omega) h3
          (by rcases hv with h | ⟨ha, hb⟩ <;> omega)]
      · simp only [utf8EncodeChar, if_neg h1, if_neg h2, if_neg h3, List.cons_append,
          List.nil_append]
        rw [utf8DecodeAux_cons, utf8DecodeStep_enc4 c (by omega)
          (by rcases hv with h | ⟨ha, hb⟩ <;> omega)]

theorem utf8EncodeList_cons (c : Char) (t : List Char) :
    utf8EncodeList (c :: t) = utf8EncodeChar c ++ utf8EncodeList t := by
  simp [utf8EncodeList]

theorem utf8DecodeAux_encodeList (l : List Char) (bs : List Nat) (f : Nat) :
    utf8DecodeAux (l.length + f) (utf8EncodeList l ++ bs) =
      (utf8DecodeAux f bs).map (fun cs => l ++ cs) := by
  induction l generalizing f with
  | nil =>
    simp [utf8EncodeList]
  | cons c t ih =>
    rw [utf8EncodeList_cons, List.append_assoc]
    have : (c :: t).length + f = (t.length + f) + 1 := by simp; omega
    rw [this, utf8DecodeAux_encodeChar, ih]
    cases utf8DecodeAux f bs <;> rfl

theorem length_le_length_utf8EncodeList (l : List Char) :
    l.length ≤ (utf8EncodeList l).length := by
  induction l with
  | nil => simp [utf8EncodeList]
  | cons c t ih =>
    rw [utf8EncodeList_cons]
    have : 1 ≤ (utf8EncodeChar c).length := by
      unfold utf8EncodeChar
      split_ifs <;> simp
    simp only [List.length_append, List.length_cons]
    omega

theorem utf8Decode_encodeList (l : List Char) : utf8Decode (utf8EncodeList l) = some l := by
  have h := utf8DecodeAux_encodeList l [] 0
  rw [List.append_nil, utf8DecodeAux_nil] at h
  simp only [Option.map_some'] at h
  rw [utf8Decode]
  exact utf8DecodeAux_mono (l.length + 0) (utf8EncodeList l).length (utf8EncodeList l)
    (l ++ []) h (by rw [Nat.add_zero]; exact length_le_length_utf8EncodeList l)
    |>.trans (by rw [List.append_nil])

theorem utf8Decode_encode (s : String) : utf8Decode (utf8Encode s) = some s.data :=
  utf8Decode_encodeList s.data

theorem struct_pack_I_eq {n : Nat} {bs : List Nat} (h : struct_pack_I n = some bs) :
    n < 4294967296 ∧ bs = le32enc n := by
  unfold struct_pack_I at h
  split at h
  · cases h
    exact ⟨by assumption, rfl⟩
  · cases h

theorem struct_unpack_le32enc (n : Nat) (h : n < 4294967296) :
    struct_unpack_I (le32enc n) = some n := by
  simp only [le32enc, struct_unpack_I, Option.some.injEq]
  omega

theorem le32enc_length (n : Nat) : (le32enc n).length = 4 := rfl

theorem pyslice_of_drop {l x r : List Nat} {a : Nat} (h : l.drop a = x ++ r) :
    pyslice l a (a + x.length) = x := by
  rw [pyslice, h, Nat.add_sub_cancel_left, List.take_left]

theorem drop_of_drop {l x r : List Nat} {a : Nat} (h : l.drop a = x ++ r) :
    l.drop (a + x.length) = r := by
  rw [← List.drop_drop, h, List.drop_left]

theorem get_of_drop {l r : List Nat} {a b : Nat} (h : l.drop a = b :: r) :
    l.get? a = some b := by
  rw [List.get?_eq_getElem?]
  have h0 := List.getElem?_drop l a 0
  rw [Nat.add_zero] at h0
  rw [← h0, h]
  simp

theorem magic_reject (decompress : List Nat → Option (List Nat))
    (arquivo_dmd : String) (bytes : List Nat) (pasta : Option String)
    (hmagic : bytes.take 4 ≠ MAGIC_NUMBER) :
    descomprimir_desempacotar decompress arquivo_dmd (some bytes) pasta =
      ⟨some UnpackErr.invalidFormat, none, []⟩ := by
  unfold descomprimir_desempacotar
  dsimp only
  rw [if_pos hmagic]

/-- Parsing correctness of the extraction loop on a well-formed tail of
the payload. -/
theorem unpackLoop_spec (dados : List Nat) :
    ∀ (es : List (List Nat × List Nat)) (pos : Nat) (acc : List (String × List Nat)),
      dados.drop pos = encEntries es →
      (∀ e ∈ es, e.2.length < 4294967296 ∧ (utf8Decode e.1).isSome) →
      unpackLoop dados pos es.length acc =
        (acc ++ es.map (fun e => (String.mk ((utf8Decode e.1).getD []), e.2)), true) := by
  intro es
  induction es with
  | nil =>
    intro pos acc _ _
    simp [unpackLoop]
  | cons e es ih =>
    intro pos acc hdrop hok
    obtain ⟨hlen, hdec⟩ := hok e (List.mem_cons_self e es)
    rw [encEntries, List.map_cons, List.flatten_cons, encEntry] at hdrop
    have hdrop1 : dados.drop pos =
        e.1.length :: (e.1 ++ (le32enc e.2.length ++ (e.2 ++ encEntries es))) := by
      rw [hdrop]
      simp [encEntries, List.append_assoc]
    have hget : dados.get? pos = some e.1.length := get_of_drop hdrop1
    have hdropName : dados.drop (pos + 1) =
        e.1 ++ (le32enc e.2.length ++ (e.2 ++ encEntries es)) := by
      have hsingle : dados.drop pos =
          [e.1.length] ++ (e.1 ++ (le32enc e.2.length ++ (e.2 ++ encEntries es))) := by
        simpa using hdrop1
      simpa using drop_of_drop hsingle
    have hname : pyslice dados (pos + 1) (pos + 1 + e.1.length) = e.1 :=
      pyslice_of_drop hdropName
    have hdropLen : dados.drop (pos + 1 + e.1.length) =
        le32enc e.2.length ++ (e.2 ++ encEntries es) :=
      drop_of_drop hdropName
    have hlenslice : pyslice dados (pos + 1 + e.1.length) (pos + 1 + e.1.length + 4) =
        le32enc e.2.length := by
      have := pyslice_of_drop hdropLen
      rwa [le32enc_length] at this
    have hdropContent : dados.drop (pos + 1 + e.1.length + 4) = e.2 ++ encEntries es := by
      have := drop_of_drop hdropLen
      rwa [le32enc_length] at this
    have hcontent : pyslice dados (pos + 1 + e.1.length + 4)
        (pos + 1 + e.1.length + 4 + e.2.length) = e.2 :=
      pyslice_of_drop hdropContent
    have hdropNext : dados.drop (pos + 1 + e.1.length + 4 + e.2.length) = encEntries es :=
      drop_of_drop hdropContent
    obtain ⟨cs, hcs⟩ := Option.isSome_iff_exists.mp hdec
    rw [List.length_cons, unpackLoop, hget]
    dsimp only
    rw [hname, hcs]
    dsimp only
    rw [hlenslice, struct_unpack_le32enc _ hlen]
    dsimp only
    rw [hcontent]
    rw [ih (pos + 1 + e.1.length + 4 + e.2.length) (acc ++ [(String.mk cs, e.2)]) hdropNext
      (fun x hx => hok x (List.mem_cons_of_mem e hx))]
    simp [hcs]

theorem packEntries_spec (fs : FS) :
    ∀ (arquivos : List String) (bs : List Nat),
      (∀ a ∈ arquivos, fs.pathExists a = true) →
      packEntries fs arquivos = some bs →
      bs = encEntries (packedEntriesModel fs arquivos) ∧
        ∀ a ∈ arquivos, ((fs.readFile a).getD []).length < 4294967296 := by
  intro arquivos
  induction arquivos with
  | nil =>
    intro bs _ hpack
    unfold packEntries at hpack
    cases hpack
    exact ⟨by simp [encEntries, packedEntriesModel], by simp⟩
  | cons a t ih =>
    intro bs hex hpack
    have ha : fs.pathExists a = true := hex a (List.mem_cons_self a t)
    unfold packEntries at hpack
    rw [if_pos ha] at hpack
    obtain ⟨c, hc⟩ : ∃ c, fs.readFile a = some c :=
      Option.isSome_iff_exists.mp ha
    rw [hc] at hpack
    dsimp only at hpack
    cases hsp : struct_pack_I c.length with
    | none =>
      rw [hsp] at hpack
      cases hpack
    | some lenBytes =>
      rw [hsp] at hpack
      cases hpe : packEntries fs t with
      | none =>
        rw [hpe] at hpack
        cases hpack
      | some restBytes =>
        rw [hpe] at hpack
        dsimp only at hpack
        cases hpack
        obtain ⟨hclen, hlb⟩ := struct_pack_I_eq hsp
        obtain ⟨hrest, hlens⟩ :=
          ih restBytes (fun x hx => hex x (List.mem_cons_of_mem a hx)) hpe
        constructor
        · rw [hlb, hrest]
          simp only [packedEntriesModel, List.map_cons, encEntries, List.flatten_cons,
            encEntry, hc]
          simp [List.append_assoc, encEntries, packedEntriesModel]
        · intro x hx
          rcases List.mem_cons.mp hx with hx | hx
          · subst hx
            rw [hc]
            simpa using hclen
          · exact hlens x hx

theorem empacotar_eq {compress : List Nat → List Nat} {fs : FS}
    {arquivos : List String} {output arcName : String} {archive : List Nat}
    (h : empacotar_comprimir compress fs arquivos output = some (arcName, archive)) :
    ∃ payload, buildPayload fs arquivos = some payload ∧
      arcName = normalizeOutput output ∧ archive = MAGIC_NUMBER ++ compress payload := by
  unfold empacotar_comprimir at h
  cases hb : buildPayload fs arquivos with
  | none =>
    rw [hb] at h
    cases h
  | some payload =>
    rw [hb] at h
    cases h
    exact ⟨payload, rfl, rfl, rfl⟩

theorem buildPayload_eq {fs : FS} {arquivos : List String} {payload : List Nat}
    (h : buildPayload fs arquivos = some payload) :
    arquivos.length < 4294967296 ∧ ∃ entries, packEntries fs arquivos = some entries ∧
      payload = le32enc arquivos.length ++ entries := by
  unfold buildPayload at h
  cases hsp : struct_pack_I arquivos.length with
  | none =>
    rw [hsp] at h
    cases h
  | some header =>
    rw [hsp] at h
    cases hpe : packEntries fs arquivos with
    | none =>
      rw [hpe] at h
      cases h
    | some entries =>
      rw [hpe] at h
      dsimp only at h
      cases h
      obtain ⟨hlt, hhd⟩ := struct_pack_I_eq hsp
      exact ⟨hlt, entries, rfl, by rw [hhd]⟩

theorem unpack_wellformed (decompress : List Nat → Option (List Nat))
    (arcName dest : String) (cbytes payload : List Nat)
    (es : List (List Nat × List Nat))
    (hdec : decompress cbytes = some payload)
    (hpay : payload = le32enc es.length ++ encEntries es)
    (hlt : es.length < 4294967296)
    (hok : ∀ e ∈ es, e.2.length < 4294967296 ∧ (utf8Decode e.1).isSome) :
    descomprimir_desempacotar decompress arcName (some (MAGIC_NUMBER ++ cbytes)) (some dest) =
      ⟨none, some dest,
        es.map (fun e => (String.mk ((utf8Decode e.1).getD []), e.2))⟩ := by
  unfold descomprimir_desempacotar
  dsimp only
  have htake : (MAGIC_NUMBER ++ cbytes).take 4 = MAGIC_NUMBER :=
    List.take_left' rfl
  rw [if_neg (by rw [htake]; exact fun hcon => hcon rfl)]
  have hdrop : (MAGIC_NUMBER ++ cbytes).drop 4 = cbytes :=
    List.drop_left' rfl
  rw [hdrop, hdec]
  dsimp only
  have hslice : pyslice payload 0 4 = le32enc es.length := by
    rw [pyslice, List.drop_zero, hpay]
    exact List.take_left' rfl
  rw [hslice, struct_unpack_le32enc _ hlt]
  dsimp only
  have hdrop4 : payload.drop 4 = encEntries es := by
    rw [hpay]
    exact List.drop_left' rfl
  rw [unpackLoop_spec payload es 4 [] hdrop4 hok]
  simp

theorem lookup_of_mem_nodup {α β : Type} [DecidableEq α] :
    ∀ (ps : List (α × β)) (k : α) (v : β),
      (ps.map Prod.fst).Nodup → (k, v) ∈ ps → ps.lookup k = some v := by
  intro ps
  induction ps with
  | nil =>
    intro k v _ hmem
    cases hmem
  | cons p t ih =>
    intro k v hnd hmem
    rw [List.map_cons, List.nodup_cons] at hnd
    rcases List.mem_cons.mp hmem with hmem | hmem
    · cases hmem
      simp [List.lookup]
    · have hne : p.1 ≠ k := by
        intro hcon
        exact hnd.1 (hcon ▸ List.mem_map_of_mem Prod.fst hmem)
      rw [List.lookup, beq_eq_false_iff_ne.mpr (fun hcon => hne hcon.symm)]
      exact ih k v hnd.2 hmem



theorem packEntries_congr (fs1 fs2 : FS) :
    ∀ (arquivos : List String),
      (∀ a ∈ arquivos, fs1.pathExists a = fs2.pathExists a ∧
        fs1.readFile a = fs2.readFile a) →
      packEntries fs1 arquivos = packEntries fs2 arquivos := by
  intro arquivos
  induction arquivos with
  | nil =>
    intro _
    rfl
  | cons a t ih =>
    intro h
    obtain ⟨he, hr⟩ := h a (List.mem_cons_self a t)
    have ht := ih (fun x hx => h x (List.mem_cons_of_mem a hx))
    unfold packEntries
    rw [he, hr, ht]

theorem packEntries_cons_skip (fs : FS) (a : String) (t : List String)
    (ha : fs.pathExists a = false) :
    packEntries fs (a :: t) = packEntries fs t := by
  unfold packEntries
  rw [ha]
  simp only [Bool.false_eq_true, if_false]
  cases t <;> rfl

theorem packEntries_filter (fs : FS) :
    ∀ (arquivos : List String),
      packEntries fs arquivos =
        packEntries fs (arquivos.filter (fun a => fs.pathExists a)) := by
  intro arquivos
  induction arquivos with
  | nil => rfl
  | cons a t ih =>
    cases ha : fs.pathExists a with
    | true =>
      rw [List.filter_cons_of_pos ha]
      unfold packEntries
      rw [ha, ih]
    | false =>
      rw [List.filter_cons_of_neg (by simp [ha]), packEntries_cons_skip fs a t ha, ih]



/-- C1: violated by the code.  Packing one existing and one missing
path writes a FileCount of 2 while serializing a single entry, and the
resulting archive crashes its own unpacker. -/
theorem count_mismatch :
    buildPayload fsOne [("a.txt"), ("missing.txt")] =
      some ([2, 0, 0, 0] ++ [5, 97, 46, 116, 120, 116, 2, 0, 0, 0, 104, 105]) ∧
    struct_unpack_I
      (pyslice ([2, 0, 0, 0] ++ [5, 97, 46, 116, 120, 116, 2, 0, 0, 0, 104, 105]) 0 4) =
      some 2 ∧
    packEntries fsOne [("a.txt"), ("missing.txt")] =
      some (encEntries [([97, 46, 116, 120, 116], [104, 105])]) ∧
    ([([97, 46, 116, 120, 116], [104, 105])] : List (List Nat × List Nat)).length = 1 ∧
    (descomprimir_desempacotar Option.some ("p.dmd")
        (some (MAGIC_NUMBER ++
          ([2, 0, 0, 0] ++ [5, 97, 46, 116, 120, 116, 2, 0, 0, 0, 104, 105])))
        none).err = some UnpackErr.exc := by
  decide

/-- C4: violated by the code.  A payload whose last entry declares 10
content bytes while only 3 remain is extracted without any error: the
clamping slice silently writes the 3 truncated bytes and the run
reports success. -/
theorem silent_truncation :
    (pyslice ([1, 0, 0, 0] ++ [1, 97] ++ [10, 0, 0, 0] ++ [1, 2, 3]) 10 20).length = 3 ∧
    descomprimir_desempacotar Option.some ("x.dmd")
        (some (MAGIC_NUMBER ++ ([1, 0, 0, 0] ++ [1, 97] ++ [10, 0, 0, 0] ++ [1, 2, 3])))
        (some ("d")) =
      ⟨none, some ("d"), [(String.mk [Char.ofNat 97], [1, 2, 3])]⟩ := by
  decide

/-- C3: an existing archive whose first 4 bytes differ from the magic
constant is rejected as an invalid format with a nonzero exit status,
with no destination directory created and the same outcome for every
decompression function, so decompression is never reached. -/
theorem magic_rejection (decompress : List Nat → Option (List Nat))
    (arquivo_dmd : String) (bytes : List Nat) (pasta : Option String)
    (hmagic : bytes.take 4 ≠ MAGIC_NUMBER) :
    descomprimir_desempacotar decompress arquivo_dmd (some bytes) pasta =
      ⟨some UnpackErr.invalidFormat, none, []⟩ ∧
    (descomprimir_desempacotar decompress arquivo_dmd (some bytes) pasta).exitCode = 1 := by
  have h := magic_reject decompress arquivo_dmd bytes pasta hmagic
  exact ⟨h, by rw [h]; rfl⟩

theorem magic_rejection_witness :
    descomprimir_desempacotar (fun _ => none) ("f.dmd") (some [0, 0, 0, 0]) none =
      ⟨some UnpackErr.invalidFormat, none, []⟩ ∧
    (descomprimir_desempacotar (fun _ => none) ("f.dmd") (some [0, 0, 0, 0]) none).exitCode
      = 1 :=
  magic_rejection (fun _ => none) ("f.dmd") [0, 0, 0, 0] none (by decide)

/-- C7: pack appends the fixed suffix to the output path exactly when
it is absent, never duplicating it, and the path pack writes to is the
normalized one. -/
theorem output_suffix (output : String) :
    (∀ (compress : List Nat → List Nat) (fs : FS) (arquivos : List String)
        (arcName : String) (archive : List Nat),
      empacotar_comprimir compress fs arquivos output = some (arcName, archive) →
      arcName = normalizeOutput output) ∧
    (pyEndsWith output (".dmd") = true → normalizeOutput output = output) ∧
    (pyEndsWith output (".dmd") = false → normalizeOutput output = output ++ (".dmd")) ∧
    pyEndsWith (normalizeOutput output) (".dmd") = true := by
  refine ⟨?hp, ?ht, ?hf, ?hs⟩
  case hp =>
    intro compress fs arquivos arcName archive h
    obtain ⟨p, _, hname, _⟩ := empacotar_eq h
    exact hname
  case ht =>
    intro h
    unfold normalizeOutput
    rw [if_pos h]
  case hf =>
    intro h
    unfold normalizeOutput
    rw [if_neg (by rw [h]; exact Bool.false_ne_true)]
  case hs =>
    unfold normalizeOutput
    split_ifs with h
    · exact h
    · simp [pyEndsWith]

theorem output_suffix_witness :
    normalizeOutput ("pacote") = ("pacote") ++ (".dmd") ∧
    normalizeOutput ("x.dmd") = ("x.dmd") :=
  ⟨(output_suffix ("pacote")).2.2.1 (by decide), (output_suffix ("x.dmd")).2.1 (by decide)⟩

/-- C9: every payload the packer builds starts with the 4-byte count,
so its length is at least 4 and the ratio denominator is nonzero. -/
theorem payload_min_length (fs : FS) (arquivos : List String) (payload : List Nat)
    (h : buildPayload fs arquivos = some payload) :
    4 ≤ payload.length ∧ (payload.length : ℚ) ≠ 0 := by
  obtain ⟨_, entries, _, hpay⟩ := buildPayload_eq h
  have h4 : 4 ≤ payload.length := by
    rw [hpay]
    simp [le32enc]
  exact ⟨h4, Nat.cast_ne_zero.mpr (by omega)⟩

theorem payload_min_length_witness :
    4 ≤ ([1, 0, 0, 0] : List Nat).length ∧ ((([1, 0, 0, 0] : List Nat).length : ℚ)) ≠ 0 :=
  payload_min_length ⟨[]⟩ [("x")] [1, 0, 0, 0] (by decide)



/-- C6: every archive pack writes is the 4-byte magic constant followed
by the compressed payload, and the payload is the 4-byte count field
followed by the entries of the embedded (existing) files in supply
order, each laid out as NameLength, Name, ContentLength, Content with
no padding. -/
theorem archive_layout (compress : List Nat → List Nat) (fs : FS)
    (arquivos : List String) (output arcName : String)
    (archive payload : List Nat)
    (hpack : empacotar_comprimir compress fs arquivos output = some (arcName, archive))
    (hpay : buildPayload fs arquivos = some payload) :
    archive = MAGIC_NUMBER ++ compress payload ∧
    payload = le32enc arquivos.length ++
      encEntries (packedEntriesModel fs (arquivos.filter (fun a => fs.pathExists a))) := by
  obtain ⟨p2, hbp2, _, hwire⟩ := empacotar_eq hpack
  rw [hpay] at hbp2
  cases hbp2
  obtain ⟨hlt, entries, hpe, hshape⟩ := buildPayload_eq hpay
  rw [packEntries_filter fs arquivos] at hpe
  obtain ⟨hent, _⟩ := packEntries_spec fs (arquivos.filter (fun a => fs.pathExists a))
    entries (fun a ha => (List.mem_filter.mp ha).2) hpe
  exact ⟨hwire, by rw [hshape, hent]⟩

theorem archive_layout_witness :
    (MAGIC_NUMBER ++ id ([2, 0, 0, 0] ++ [5, 97, 46, 116, 120, 116, 2, 0, 0, 0, 104, 105])
      = MAGIC_NUMBER ++
        id ([2, 0, 0, 0] ++ [5, 97, 46, 116, 120, 116, 2, 0, 0, 0, 104, 105])) ∧
    ([2, 0, 0, 0] ++ [5, 97, 46, 116, 120, 116, 2, 0, 0, 0, 104, 105] : List Nat) =
      le32enc ([("a.txt"), ("missing.txt")] : List String).length ++
        encEntries (packedEntriesModel fsOne
          (([("a.txt"), ("missing.txt")] : List String).filter
            (fun a => fsOne.pathExists a))) :=
  archive_layout id fsOne [("a.txt"), ("missing.txt")] ("o") ("o.dmd")
    (MAGIC_NUMBER ++ id ([2, 0, 0, 0] ++ [5, 97, 46, 116, 120, 116, 2, 0, 0, 0, 104, 105]))
    ([2, 0, 0, 0] ++ [5, 97, 46, 116, 120, 116, 2, 0, 0, 0, 104, 105])
    (by decide) (by decide)

/-- C8: the reported compression percentage is exactly
(1 - compressed/original) * 100, where original is the payload size and
compressed is the archive size minus the 4-byte magic header, computed
here over exact rationals in place of Python floats. -/
theorem taxa_formula (compress : List Nat → List Nat) (fs : FS)
    (arquivos : List String) (output arcName : String)
    (archive payload : List Nat)
    (hpack : empacotar_comprimir compress fs arquivos output = some (arcName, archive))
    (hpay : buildPayload fs arquivos = some payload) :
    taxaCompressao compress fs arquivos =
      some ((1 - (((archive.length - MAGIC_NUMBER.length : Nat)) : ℚ) /
        (payload.length : ℚ)) * 100) := by
  obtain ⟨p2, hbp2, _, hwire⟩ := empacotar_eq hpack
  rw [hpay] at hbp2
  cases hbp2
  have hlen : archive.length - MAGIC_NUMBER.length = (compress payload).length := by
    rw [hwire]
    simp
  unfold taxaCompressao
  rw [hpay]
  dsimp only
  rw [hlen]

theorem taxa_formula_witness :
    taxaCompressao id fsOne [("a.txt")] =
      some ((1 - ((((MAGIC_NUMBER ++
          id ([1, 0, 0, 0] ++ [5, 97, 46, 116, 120, 116, 2, 0, 0, 0, 104, 105])).length -
          MAGIC_NUMBER.length : Nat)) : ℚ) /
        ((([1, 0, 0, 0] ++ [5, 97, 46, 116, 120, 116, 2, 0, 0, 0, 104, 105] :
          List Nat)).length : ℚ)) * 100) :=
  taxa_formula id fsOne [("a.txt")] ("out") ("out.dmd")
    (MAGIC_NUMBER ++ id ([1, 0, 0, 0] ++ [5, 97, 46, 116, 120, 116, 2, 0, 0, 0, 104, 105]))
    ([1, 0, 0, 0] ++ [5, 97, 46, 116, 120, 116, 2, 0, 0, 0, 104, 105])
    (by decide) (by decide)

/-- C10: packing is deterministic: two runs over filesystems that agree
on the existence and contents of every supplied path, with the same
path list and output path, produce identical results. -/
theorem pack_deterministic (compress : List Nat → List Nat) (fs1 fs2 : FS)
    (arquivos : List String) (output : String)
    (h : ∀ a ∈ arquivos, fs1.pathExists a = fs2.pathExists a ∧
      fs1.readFile a = fs2.readFile a) :
    empacotar_comprimir compress fs1 arquivos output =
      empacotar_comprimir compress fs2 arquivos output := by
  have hpe := packEntries_congr fs1 fs2 arquivos h
  unfold empacotar_comprimir buildPayload
  rw [hpe]

theorem pack_deterministic_witness :
    empacotar_comprimir id ⟨[(("a"), [1])]⟩ [("a")] ("o") =
      empacotar_comprimir id ⟨[(("a"), [1]), (("b"), [2])]⟩ [("a")] ("o") :=
  pack_deterministic id ⟨[(("a"), [1])]⟩ ⟨[(("a"), [1]), (("b"), [2])]⟩ [("a")] ("o")
    (by decide)



set_option maxRecDepth 100000 in
/-- C5, counterexample: a 256-byte name is truncated to 255 bytes, the
cut splits the trailing two-byte character, the truncated name is not
valid UTF-8, and unpacking the archive of that file aborts with an
exception instead of decoding the name. -/
theorem name_truncation_counterexample :
    (utf8Encode (basename longName)).length = 256 ∧
    (truncTo255 (utf8Encode (basename longName))).length = 255 ∧
    utf8Decode (truncTo255 (utf8Encode (basename longName))) = none ∧
    empacotar_comprimir id fsLong [longName] ("n") = some (("n.dmd"), longArchive) ∧
    (descomprimir_desempacotar Option.some ("n.dmd") (some longArchive) none).err =
      some UnpackErr.exc := by
  decide

/-- C5, amended: packing truncates an over-long encoded name to exactly
255 bytes; decoding the truncated name during unpack succeeds when the
truncation falls on a character boundary (the 255-byte prefix is itself
the encoding of some string), and fails otherwise. -/
theorem name_truncation_amended (nome s : String)
    (hlong : 255 < (utf8Encode nome).length)
    (hpre : (utf8Encode nome).take 255 = utf8Encode s) :
    (truncTo255 (utf8Encode nome)).length = 255 ∧
    utf8Decode (truncTo255 (utf8Encode nome)) = some s.data := by
  unfold truncTo255
  rw [if_pos hlong]
  constructor
  · rw [List.length_take]
    omega
  · rw [hpre]
    exact utf8Decode_encode s

set_option maxRecDepth 100000 in
theorem name_truncation_witness :
    (truncTo255 (utf8Encode (String.mk (List.replicate 256 (Char.ofNat 97))))).length
      = 255 ∧
    utf8Decode (truncTo255 (utf8Encode (String.mk (List.replicate 256 (Char.ofNat 97)))))
      = some (String.mk (List.replicate 255 (Char.ofNat 97))).data :=
  name_truncation_amended (String.mk (List.replicate 256 (Char.ofNat 97)))
    (String.mk (List.replicate 255 (Char.ofNat 97))) (by decide) (by decide)

/-- C2, counterexample: two existing files with short names but equal
base names round-trip into a single destination file holding the second
content, so the first file's content is not reproduced under its base
name. -/
theorem roundtrip_counterexample :
    fsDup.pathExists ("a") = true ∧ fsDup.pathExists ("b/a") = true ∧
    (utf8Encode (basename ("a"))).length ≤ 255 ∧
    (utf8Encode (basename ("b/a"))).length ≤ 255 ∧
    basename ("b/a") = basename ("a") ∧
    empacotar_comprimir id fsDup [("a"), ("b/a")] ("o") = some (("o.dmd"), dupArchive) ∧
    (descomprimir_desempacotar Option.some ("o.dmd") (some dupArchive)
      (some ("d"))).written = [(("a"), [0]), (("a"), [1])] ∧
    ((descomprimir_desempacotar Option.some ("o.dmd") (some dupArchive)
      (some ("d"))).written.reverse.lookup (basename ("a"))) = some [1] ∧
    fsDup.readFile ("a") = some [0] ∧
    ((descomprimir_desempacotar Option.some ("o.dmd") (some dupArchive)
      (some ("d"))).written.reverse.lookup (basename ("a"))) ≠ fsDup.readFile ("a") := by
  decide

/-- C2, amended. -/
theorem roundtrip_amended (compress : List Nat → List Nat)
    (decompress : List Nat → Option (List Nat))
    (hzlib : ∀ b, decompress (compress b) = some b)
    (fs : FS) (arquivos : List String) (output dest arcName : String)
    (archive : List Nat)
    (_hne0 : arquivos ≠ [])
    (hex : ∀ a ∈ arquivos, fs.pathExists a = true)
    (hname : ∀ a ∈ arquivos, (utf8Encode (basename a)).length ≤ 255)
    (hnodup : (arquivos.map basename).Nodup)
    (hpack : empacotar_comprimir compress fs arquivos output = some (arcName, archive)) :
    (descomprimir_desempacotar decompress arcName (some archive) (some dest)).err = none ∧
      ∀ a ∈ arquivos,
        ((descomprimir_desempacotar decompress arcName (some archive)
            (some dest)).written.reverse.lookup (basename a)) = fs.readFile a := by
  obtain ⟨payload, hbp, harc, hwire⟩ := empacotar_eq hpack
  obtain ⟨hcount, entries, hpe, hpayload⟩ := buildPayload_eq hbp
  obtain ⟨hentries, hlens⟩ := packEntries_spec fs arquivos entries hex hpe
  have hmodlen : (packedEntriesModel fs arquivos).length = arquivos.length := by
    simp [packedEntriesModel]
  have hnames : ∀ a ∈ arquivos,
      truncTo255 (utf8Encode (basename a)) = utf8Encode (basename a) := by
    intro a ha
    unfold truncTo255
    rw [if_neg (by have := hname a ha; omega)]
  have hok : ∀ e ∈ packedEntriesModel fs arquivos,
      e.2.length < 4294967296 ∧ (utf8Decode e.1).isSome := by
    intro e he
    obtain ⟨a, ha, hea⟩ := List.mem_map.mp he
    subst hea
    refine ⟨hlens a ha, ?hd⟩
    rw [hnames a ha, utf8Decode_encode]
    rfl
  have hpay2 : payload = le32enc (packedEntriesModel fs arquivos).length ++
      encEntries (packedEntriesModel fs arquivos) := by
    rw [hmodlen, hpayload, hentries]
  have hun := unpack_wellformed decompress arcName dest (compress payload) payload
    (packedEntriesModel fs arquivos) (hzlib payload) hpay2 (by rw [hmodlen]; exact hcount)
    hok
  rw [hwire, hun]
  have hwritten : (packedEntriesModel fs arquivos).map
      (fun e => (String.mk ((utf8Decode e.1).getD []), e.2)) =
      arquivos.map (fun a => (basename a, (fs.readFile a).getD [])) := by
    rw [packedEntriesModel, List.map_map]
    refine List.map_congr_left ?h
    intro a ha
    dsimp only [Function.comp]
    rw [hnames a ha, utf8Decode_encode]
    rfl
  rw [hwritten]
  refine ⟨rfl, ?hlook⟩
  intro a ha
  dsimp only
  obtain ⟨c, hc⟩ : ∃ c, fs.readFile a = some c :=
    Option.isSome_iff_exists.mp (hex a ha)
  have hmem : (basename a, (fs.readFile a).getD []) ∈
      arquivos.map (fun x => (basename x, (fs.readFile x).getD [])) :=
    List.mem_map_of_mem _ ha
  have hnodup2 : (((arquivos.map
      (fun x => (basename x, (fs.readFile x).getD []))).reverse).map Prod.fst).Nodup := by
    rw [List.map_reverse, List.nodup_reverse, List.map_map]
    simpa [Function.comp] using hnodup
  have := lookup_of_mem_nodup
    ((arquivos.map (fun x => (basename x, (fs.readFile x).getD []))).reverse)
    (basename a) ((fs.readFile a).getD []) hnodup2 (List.mem_reverse.mpr hmem)
  rw [this, hc]
  rfl

theorem roundtrip_witness :
    (descomprimir_desempacotar Option.some ("out.dmd") (some oneArchive)
      (some ("d"))).err = none ∧
    ((descomprimir_desempacotar Option.some ("out.dmd") (some oneArchive)
      (some ("d"))).written.reverse.lookup (basename ("a.txt"))) =
      fsOne.readFile ("a.txt") := by
  have h := roundtrip_amended id Option.some (fun b => rfl) fsOne [("a.txt")]
    ("out") ("d") ("out.dmd") oneArchive (by decide) (by decide) (by decide) (by decide)
    (by decide)
  exact ⟨h.1, h.2 ("a.txt") (by decide)⟩

end Diamond
